import Mathlib

/-!
Verification of the request-orchestration / caching / large-context core of
the ai-summary-extension repository, as a shallow embedding in Lean.

The definitions below are transcribed from the TypeScript sources:
  - src/refactor_service.ts  (processLargeContext, chunkLargeContext,
    handleExtremelyLargeContext, callChatAPI routing)
  - src/cache.ts             (SummaryCache: get / set / remove / getStats)
  - src/background.ts        (BackgroundService: startLLMRequest,
    processLLMRequest, getRequestStatus, callLLMAPI)

JavaScript numbers are modelled as Nat / Int (with truncated Nat
subtraction only where the source is provably non-negative, or where JS
`substring` clamps negative arguments to 0 anyway, as noted inline).
JS strings are modelled as Lean strings (sequences of characters).
-/

/-- Message roles, from the TS union type 'system' | 'user' | 'assistant'. -/
inductive Role where
  | system
  | user
  | assistant
deriving DecidableEq

/-- A chat message: { role, content }. -/
structure Msg where
  role : Role
  content : String
deriving DecidableEq

/-- JS `s.substring(0, n)`: the first n characters of s (JS clamps a
negative n to 0, which matches truncated Nat subtraction at the call
site below). -/
def jsSubstring (s : String) (n : Nat) : String :=
  ⟨s.data.take n⟩

/-- Token estimation from refactor_service.ts line 196:
`Math.ceil(text.length / 4)`. -/
def estimateTokens (text : String) : Nat :=
  (text.length + 3) / 4

/-- The message loop of processLargeContext (refactor_service.ts lines
211-233), walking the reversed tail of the message list (newest first).
`processed` is the accumulated output (JS `unshift` prepends, so the
accumulator is consed onto). In the overflow branch the source's inner
guard `messageTokens > availableTokens - totalTokens` is exactly the
negation of the outer test over JS number arithmetic, so the truncate
and break always happen there. -/
def processLargeContextLoop (maxTokens : Nat) :
    List Msg → List Msg → Nat → List Msg
  | [], processed, _ => processed
  | message :: rest, processed, totalTokens =>
    let messageTokens := estimateTokens message.content
    let reservedTokens := maxTokens / 3
    let availableTokens := maxTokens - reservedTokens
    if totalTokens + messageTokens ≤ availableTokens then
      processLargeContextLoop maxTokens rest (message :: processed)
        (totalTokens + messageTokens)
    else
      let availableChars := (availableTokens - totalTokens) * 4
      { role := message.role,
        content := jsSubstring message.content availableChars ++ "..." } :: processed

/-- processLargeContext (refactor_service.ts lines 191-236), the
component the spec calls `fitToBudget`. Keeps messages[0] up front only
when its role is 'system'; the remaining messages (`messages.slice(1)`,
unconditionally) are processed from newest to oldest. -/
def processLargeContext (messages : List Msg) (maxTokens : Nat) : List Msg :=
  match messages with
  | [] => []
  | m0 :: rest =>
    if m0.role = Role.system then
      processLargeContextLoop maxTokens rest.reverse [m0]
        (estimateTokens m0.content)
    else
      processLargeContextLoop maxTokens rest.reverse [] 0

/-- Claim C1: running processLargeContext on its own output shrinks it
further: on [user "hi", user "yo"] with maxTokens 1000 the first run
already drops the first message (the unconditional `messages.slice(1)`
skips messages[0] even when it is not a system message) and returns
[user "yo"]; running again on [user "yo"] returns []. This contradicts
the spec's idempotence property, whose intended algorithm (keep the
leading system message, then greedily keep the rest newest-first) would
not drop a fitting first message at all. -/
theorem processLargeContext_not_idempotent :
    processLargeContext [⟨Role.user, "hi"⟩, ⟨Role.user, "yo"⟩] 1000 =
      [⟨Role.user, "yo"⟩]
    ∧ processLargeContext [⟨Role.user, "yo"⟩] 1000 = [] := by
  constructor <;> rfl

/-- The loop only ever conses onto its accumulator, so the accumulator is
a suffix of the result. -/
theorem processLargeContextLoop_suffix (maxTokens : Nat) :
    ∀ (ms processed : List Msg) (totalTokens : Nat),
      ∃ L, processLargeContextLoop maxTokens ms processed totalTokens =
        L ++ processed := by
  intro ms
  induction ms with
  | nil => intro processed totalTokens; exact ⟨[], rfl⟩
  | cons m rest ih =>
    intro processed totalTokens
    rw [processLargeContextLoop]
    by_cases h :
        totalTokens + estimateTokens m.content ≤ maxTokens - maxTokens / 3
    · simp only [h, if_pos]
      obtain ⟨L, hL⟩ := ih (m :: processed)
        (totalTokens + estimateTokens m.content)
      exact ⟨L ++ [m], by simp [hL]⟩
    · simp only [h, if_neg, not_false_iff]
      exact ⟨[{ role := m.role,
                content := jsSubstring m.content
                  ((maxTokens - maxTokens / 3 - totalTokens) * 4) ++ "..." }], rfl⟩

/-- Claim C7 (counterexample): the claim asserts that a leading system
message appears first in the output and that no system message is ever
dropped. On [system "S", system "AAAAAAAAAAAAAAAA", user "BBBBBBBBBBBB"]
with maxTokens 4, the output is [user "BBBBBBBB...", system "S"]: the
leading system message is kept but ends up last (JS `unshift` prepends
kept messages in front of the already-pushed system message), and the
system message at position 1 is dropped entirely. -/
theorem processLargeContext_system_not_first :
    processLargeContext
        [⟨Role.system, "S"⟩, ⟨Role.system, "AAAAAAAAAAAAAAAA"⟩,
         ⟨Role.user, "BBBBBBBBBBBB"⟩] 4 =
      [⟨Role.user, "BBBBBBBB..."⟩, ⟨Role.system, "S"⟩]
    ∧ (processLargeContext
        [⟨Role.system, "S"⟩, ⟨Role.system, "AAAAAAAAAAAAAAAA"⟩,
         ⟨Role.user, "BBBBBBBBBBBB"⟩] 4).head? ≠ some ⟨Role.system, "S"⟩
    ∧ ⟨Role.system, "AAAAAAAAAAAAAAAA"⟩ ∉ processLargeContext
        [⟨Role.system, "S"⟩, ⟨Role.system, "AAAAAAAAAAAAAAAA"⟩,
         ⟨Role.user, "BBBBBBBBBBBB"⟩] 4 := by
  refine ⟨rfl, by decide, by decide⟩

/-- Claim C7 (amended): when the first message has role 'system' it is
always kept in the output with its content unmodified, but as the LAST
element of the output list (not the first): every other kept message is
prepended in front of it. System messages at positions other than the
first receive no special treatment. -/
theorem processLargeContext_keeps_leading_system (messages : List Msg)
    (maxTokens : Nat) (m0 : Msg) (hhead : messages.head? = some m0)
    (hrole : m0.role = Role.system) :
    ∃ L, processLargeContext messages maxTokens = L ++ [m0] := by
  match messages with
  | [] => simp at hhead
  | m :: rest =>
    simp only [List.head?] at hhead
    cases hhead
    rw [processLargeContext]
    simp only [hrole, if_pos]
    exact processLargeContextLoop_suffix maxTokens rest.reverse [m0]
      (estimateTokens m0.content)

/-- Claim C7 (witness for the amended theorem at a concrete input). -/
theorem processLargeContext_keeps_leading_system_witness :
    ∃ L, processLargeContext [⟨Role.system, "S"⟩, ⟨Role.user, "U"⟩] 1000 =
      L ++ [⟨Role.system, "S"⟩] :=
  processLargeContext_keeps_leading_system _ 1000 _ rfl rfl

/-- Total character length of a message list, from the `reduce` at
refactor_service.ts lines 249 and 526:
`messages.reduce((sum, msg) => sum + msg.content.length, 0)`. -/
def totalContentLength (messages : List Msg) : Nat :=
  messages.foldl (fun sum msg => sum + msg.content.length) 0

/-- The chunk bound of chunkLargeContext (refactor_service.ts line 329). -/
def maxChunkSize : Nat := 50000

/-- Accumulator of the chunking loop: chunks built so far, the current
chunk, and its running character size. -/
structure ChunkState where
  chunks : List (List Msg)
  currentChunk : List Msg
  currentChunkSize : Nat

/-- One iteration of the loop in chunkLargeContext (refactor_service.ts
lines 334-347): flush the current chunk when adding the message would
exceed the bound and the current chunk is nonempty, then append the
message to the current chunk. -/
def chunkStep (st : ChunkState) (message : Msg) : ChunkState :=
  let messageSize := message.content.length
  if maxChunkSize < st.currentChunkSize + messageSize ∧ st.currentChunk ≠ [] then
    { chunks := st.chunks ++ [st.currentChunk],
      currentChunk := [message],
      currentChunkSize := messageSize }
  else
    { chunks := st.chunks,
      currentChunk := st.currentChunk ++ [message],
      currentChunkSize := st.currentChunkSize + messageSize }

/-- The trailing step of chunkLargeContext (refactor_service.ts lines
349-352): push the last chunk if it has content. -/
def chunkFinalize (st : ChunkState) : List (List Msg) :=
  if st.currentChunk ≠ [] then st.chunks ++ [st.currentChunk] else st.chunks

/-- chunkLargeContext (refactor_service.ts lines 326-355). -/
def chunkLargeContext (messages : List Msg) : List (List Msg) :=
  chunkFinalize (messages.foldl chunkStep ⟨[], [], 0⟩)

theorem totalContentLength_eq_sum :
    ∀ (l : List Msg) (n : Nat),
      l.foldl (fun sum msg => sum + msg.content.length) n =
        n + (l.map (fun m => m.content.length)).sum := by
  intro l
  induction l with
  | nil => intro n; simp
  | cons m rest ih =>
    intro n
    simp only [List.foldl_cons, List.map_cons, List.sum_cons]
    rw [ih]
    omega

theorem totalContentLength_append (l₁ l₂ : List Msg) :
    totalContentLength (l₁ ++ l₂) =
      totalContentLength l₁ + totalContentLength l₂ := by
  simp only [totalContentLength, totalContentLength_eq_sum, List.map_append,
    List.sum_append]
  omega

/-- Generalised coverage invariant of the chunking loop: finalizing after
folding any message list over any starting state yields the flattened
prior chunks, then the pending chunk, then the folded messages. -/
theorem chunkFinalize_foldl_flatten :
    ∀ (messages : List Msg) (st : ChunkState),
      (chunkFinalize (messages.foldl chunkStep st)).flatten =
        st.chunks.flatten ++ st.currentChunk ++ messages := by
  intro messages
  induction messages with
  | nil =>
    intro st
    by_cases h : st.currentChunk = [] <;> simp [chunkFinalize, h]
  | cons m rest ih =>
    intro st
    rw [List.foldl_cons, ih (chunkStep st m), chunkStep]
    by_cases h : maxChunkSize < st.currentChunkSize + m.content.length ∧
        st.currentChunk ≠ [] <;> simp [h]

/-- Claim C5: concatenating the chunks produced by chunkLargeContext, in
order, yields exactly the original message list, so every message
occurrence lands in exactly one chunk, nothing is duplicated, and
relative order is preserved. -/
theorem chunkLargeContext_coverage (messages : List Msg) :
    (chunkLargeContext messages).flatten = messages := by
  have h := chunkFinalize_foldl_flatten messages ⟨[], [], 0⟩
  simpa [chunkLargeContext] using h

theorem chunkStep_flush (st : ChunkState) (m : Msg)
    (h : maxChunkSize < st.currentChunkSize + m.content.length ∧
      st.currentChunk ≠ []) :
    chunkStep st m =
      ⟨st.chunks ++ [st.currentChunk], [m], m.content.length⟩ := by
  simp only [chunkStep]
  rw [if_pos h]

theorem chunkStep_add (st : ChunkState) (m : Msg)
    (h : ¬(maxChunkSize < st.currentChunkSize + m.content.length ∧
      st.currentChunk ≠ [])) :
    chunkStep st m =
      ⟨st.chunks, st.currentChunk ++ [m],
        st.currentChunkSize + m.content.length⟩ := by
  simp only [chunkStep]
  rw [if_neg h]

theorem mem_chunkFinalize {c : List Msg} {st : ChunkState} :
    c ∈ chunkFinalize st ↔
      c ∈ st.chunks ∨ (st.currentChunk ≠ [] ∧ c = st.currentChunk) := by
  rw [chunkFinalize]
  by_cases h : st.currentChunk = [] <;> simp [h]

theorem totalContentLength_nil : totalContentLength [] = 0 := rfl

theorem totalContentLength_singleton (m : Msg) :
    totalContentLength [m] = m.content.length := by
  simp [totalContentLength]

/-- Generalised bound invariant of the chunking loop: if the running size
is accurate and every completed or pending multi-message chunk fits the
bound, the same holds after folding any further messages and finalizing. -/
theorem chunkFinalize_foldl_bound :
    ∀ (messages : List Msg) (st : ChunkState),
      st.currentChunkSize = totalContentLength st.currentChunk →
      (2 ≤ st.currentChunk.length →
        totalContentLength st.currentChunk ≤ maxChunkSize) →
      (∀ c ∈ st.chunks, 2 ≤ c.length → totalContentLength c ≤ maxChunkSize) →
      ∀ c ∈ chunkFinalize (messages.foldl chunkStep st),
        2 ≤ c.length → totalContentLength c ≤ maxChunkSize := by
  intro messages
  induction messages with
  | nil =>
    intro st _ hcur hchunks c hc
    rw [List.foldl_nil] at hc
    rcases mem_chunkFinalize.mp hc with hc | ⟨_, hc⟩
    · exact hchunks c hc
    · subst hc; exact hcur
  | cons m rest ih =>
    intro st hsize hcur hchunks
    rw [List.foldl_cons]
    by_cases h : maxChunkSize < st.currentChunkSize + m.content.length ∧
        st.currentChunk ≠ []
    · rw [chunkStep_flush st m h]
      apply ih
      · exact (totalContentLength_singleton m).symm
      · intro h2; simp at h2
      · intro c hc
        rcases List.mem_append.mp hc with hc | hc
        · exact hchunks c hc
        · rw [List.mem_singleton] at hc
          subst hc
          exact hcur
    · rw [chunkStep_add st m h]
      apply ih
      · simp [totalContentLength_append, totalContentLength_singleton, hsize]
      · intro hlen2
        rcases not_and_or.mp h with h1 | h2
        · rw [totalContentLength_append, totalContentLength_singleton, ← hsize]
          omega
        · exfalso
          have hemp : st.currentChunk = [] := by simpa using h2
          rw [hemp] at hlen2
          simp at hlen2
      · exact hchunks

/-- Claim C10: every chunk produced by chunkLargeContext that contains
two or more messages has total content length at most the 50,000
character bound; equivalently, a chunk whose total content length
exceeds the bound consists of exactly one message. -/
theorem chunkLargeContext_oversized_chunk_is_singleton (messages : List Msg)
    (c : List Msg) (hc : c ∈ chunkLargeContext messages) :
    (2 ≤ c.length → totalContentLength c ≤ maxChunkSize)
    ∧ (maxChunkSize < totalContentLength c → c.length = 1) := by
  have hbound : 2 ≤ c.length → totalContentLength c ≤ maxChunkSize :=
    chunkFinalize_foldl_bound messages ⟨[], [], 0⟩ rfl
      (by intro h2; simp at h2) (by intro c hc; simp at hc) c hc
  refine ⟨hbound, ?_⟩
  intro hover
  match c with
  | [] =>
    rw [totalContentLength_nil] at hover
    exact absurd hover (by simp)
  | [m] => rfl
  | a :: b :: t =>
    exact absurd (hbound (by simp)) (by omega)

/-- Claim C10 (witness): a concrete two-message chunk obeys the bound. -/
theorem chunkLargeContext_oversized_chunk_is_singleton_witness :
    [⟨Role.user, "ab"⟩, ⟨Role.user, "cd"⟩] ∈
        chunkLargeContext [⟨Role.user, "ab"⟩, ⟨Role.user, "cd"⟩]
    ∧ totalContentLength [⟨Role.user, "ab"⟩, ⟨Role.user, "cd"⟩] ≤ maxChunkSize :=
  ⟨by decide,
    (chunkLargeContext_oversized_chunk_is_singleton
      [⟨Role.user, "ab"⟩, ⟨Role.user, "cd"⟩]
      [⟨Role.user, "ab"⟩, ⟨Role.user, "cd"⟩] (by decide)).1 (by decide)⟩

/-- The two processing paths of the portkey branch of callChatAPI. -/
inductive PortkeyChatPath where
  | chunkedLoop
  | direct
deriving DecidableEq

/-- Estimated token size of a whole conversation, from
refactor_service.ts lines 249-250 and 526-527:
`Math.ceil(totalLength / 4)` over the summed content lengths. -/
def conversationEstimatedTokens (messages : List Msg) : Nat :=
  (totalContentLength messages + 3) / 4

/-- The guard of handleExtremelyLargeContext (refactor_service.ts lines
248-268): below 100K estimated tokens it delegates to the direct
large-context API, otherwise it runs the chunking loop. -/
def handleExtremelyLargeContextPath (messages : List Msg) : PortkeyChatPath :=
  if conversationEstimatedTokens messages < 100000 then
    PortkeyChatPath.direct
  else
    PortkeyChatPath.chunkedLoop

/-- The routing decision of the portkey branch of callChatAPI
(refactor_service.ts lines 523-552): above 100K estimated tokens it
calls handleExtremelyLargeContext, otherwise the direct path. -/
def callChatAPIPortkeyPath (messages : List Msg) : PortkeyChatPath :=
  if 100000 < conversationEstimatedTokens messages then
    handleExtremelyLargeContextPath messages
  else
    PortkeyChatPath.direct

/-- Claim C6: the chunked path (handleExtremelyLargeContext's chunking
loop) is taken if and only if the estimated token size
ceil(total characters / 4) strictly exceeds 100,000; in particular any
600,000-character history is routed to the chunked path. -/
theorem callChatAPIPortkeyPath_threshold :
    (∀ messages : List Msg,
      callChatAPIPortkeyPath messages = PortkeyChatPath.chunkedLoop ↔
        100000 < conversationEstimatedTokens messages)
    ∧ (∀ messages : List Msg, totalContentLength messages = 600000 →
        callChatAPIPortkeyPath messages = PortkeyChatPath.chunkedLoop) := by
  have hmain : ∀ messages : List Msg,
      callChatAPIPortkeyPath messages = PortkeyChatPath.chunkedLoop ↔
        100000 < conversationEstimatedTokens messages := by
    intro messages
    rw [callChatAPIPortkeyPath, handleExtremelyLargeContextPath]
    by_cases h : 100000 < conversationEstimatedTokens messages
    · rw [if_pos h, if_neg (by omega)]
      simp [h]
    · rw [if_neg h]
      simp [h]
  refine ⟨hmain, ?_⟩
  intro messages hlen
  rw [hmain, conversationEstimatedTokens, hlen]
  norm_num

/-- Claim C6 (witness): a single 600,000-character message is routed to
the chunked path. -/
theorem callChatAPIPortkeyPath_threshold_witness :
    totalContentLength [⟨Role.user, ⟨List.replicate 600000 'a'⟩⟩] = 600000
    ∧ callChatAPIPortkeyPath [⟨Role.user, ⟨List.replicate 600000 'a'⟩⟩] =
        PortkeyChatPath.chunkedLoop := by
  have h1 : totalContentLength [⟨Role.user, ⟨List.replicate 600000 'a'⟩⟩] =
      (String.mk (List.replicate 600000 'a')).length :=
    totalContentLength_singleton _
  have h2 : (String.mk (List.replicate 600000 'a')).length = 600000 :=
    List.length_replicate 600000 'a'
  exact ⟨h1.trans h2, callChatAPIPortkeyPath_threshold.2 _ (h1.trans h2)⟩

/-- Lookup in a JS object / Map modelled as an association list (first
binding wins; JS objects and Maps have at most one binding per key). -/
def jsMapGet {β : Type} : List (String × β) → String → Option β
  | [], _ => none
  | (k, v) :: rest, key => if k = key then some v else jsMapGet rest key

/-- JS `map[key] = value` / `map.set(key, value)`: replaces the existing
binding in place, otherwise appends a new binding (JS objects and Maps
preserve insertion order). -/
def jsMapSet {β : Type} : List (String × β) → String → β → List (String × β)
  | [], key, value => [(key, value)]
  | (k, v) :: rest, key, value =>
    if k = key then (key, value) :: rest else (k, v) :: jsMapSet rest key value

/-- JS `delete map[key]` / `map.delete(key)`. -/
def jsMapDelete {β : Type} : List (String × β) → String → List (String × β)
  | [], _ => []
  | (k, v) :: rest, key =>
    if k = key then jsMapDelete rest key else (k, v) :: jsMapDelete rest key

theorem jsMapGet_set_self {β : Type} (m : List (String × β)) (k : String)
    (v : β) : jsMapGet (jsMapSet m k v) k = some v := by
  induction m with
  | nil => simp [jsMapSet, jsMapGet]
  | cons p rest ih =>
    obtain ⟨k', v'⟩ := p
    by_cases h : k' = k
    · simp [jsMapSet, h, jsMapGet]
    · simp [jsMapSet, h, jsMapGet, ih]

theorem jsMapGet_set_ne {β : Type} (m : List (String × β)) (k k' : String)
    (v : β) (h : k' ≠ k) : jsMapGet (jsMapSet m k v) k' = jsMapGet m k' := by
  induction m with
  | nil => simp [jsMapSet, jsMapGet, Ne.symm h]
  | cons p rest ih =>
    obtain ⟨k0, v0⟩ := p
    by_cases h0 : k0 = k
    · subst h0
      simp [jsMapSet, jsMapGet, Ne.symm h]
    · by_cases h1 : k0 = k'
      · simp [jsMapSet, h0, jsMapGet, h1, h]
      · simp [jsMapSet, h0, jsMapGet, h1, ih]

theorem jsMapGet_delete_self {β : Type} (m : List (String × β)) (k : String) :
    jsMapGet (jsMapDelete m k) k = none := by
  induction m with
  | nil => simp [jsMapDelete, jsMapGet]
  | cons p rest ih =>
    obtain ⟨k', v'⟩ := p
    by_cases h : k' = k
    · simp [jsMapDelete, h, ih]
    · simp [jsMapDelete, h, jsMapGet, ih]

theorem jsMapGet_delete_ne {β : Type} (m : List (String × β)) (k k' : String)
    (h : k' ≠ k) : jsMapGet (jsMapDelete m k) k' = jsMapGet m k' := by
  induction m with
  | nil => simp [jsMapDelete]
  | cons p rest ih =>
    obtain ⟨k0, v0⟩ := p
    by_cases h0 : k0 = k
    · subst h0
      simp [jsMapDelete, jsMapGet, Ne.symm h, ih]
    · by_cases h1 : k0 = k'
      · simp [jsMapDelete, h0, jsMapGet, h1, h]
      · simp [jsMapDelete, h0, jsMapGet, h1, ih]

/-- Job status values of a PendingRequest (background.ts line 77). -/
inductive JobStatus where
  | pending
  | processing
  | completed
  | error
deriving DecidableEq

/-- LLMResponse (background.ts lines 67-72). -/
structure LLMResponse where
  summary : String
  error : Option String := none
  fromCache : Bool := false
  cachedAt : Option Int := none
deriving DecidableEq

/-- PendingRequest (background.ts lines 74-81). -/
structure PendingRequest where
  id : String
  tabUrl : String
  status : JobStatus
  result : Option LLMResponse := none
  error : Option String := none
  timestamp : Int
deriving DecidableEq

/-- The pendingRequests map of BackgroundService (background.ts line 85). -/
abbrev Registry := List (String × PendingRequest)

/-- getRequestStatus (background.ts lines 176-178). -/
def getRequestStatus (reg : Registry) (requestId : String) :
    Option PendingRequest :=
  jsMapGet reg requestId

/-- callLLMAPI (background.ts lines 184-286). The cache-lookup branch is
modelled by the `cached` parameter (SummaryCache.get catches its own
storage failures and degrades to null, so it never throws); the backend
call outcome is the `backend` parameter. The whole body sits in a
try/catch whose catch returns a normal response with the error field
set, so this function is total: no exception escapes it. -/
def callLLMAPI (cached : Option (String × Int))
    (backend : Except String LLMResponse) : LLMResponse :=
  match cached with
  | some (summary, cachedTimestamp) =>
    { summary := summary, fromCache := true, cachedAt := some cachedTimestamp }
  | none =>
    match backend with
    | Except.ok response => response
    | Except.error msg => { summary := "", error := some msg }

/-- processLLMRequest (background.ts lines 152-174): re-validate the job
exists, flip it to processing, then record the resolution outcome —
completed with the result, or error with the message (the code's catch
branch, reachable only if the awaited call itself throws). -/
def processLLMRequest (reg : Registry) (requestId : String)
    (resolution : Except String LLMResponse) : Registry :=
  match jsMapGet reg requestId with
  | none => reg
  | some pendingRequest =>
    let reg1 := jsMapSet reg requestId
      { pendingRequest with status := JobStatus.processing }
    match resolution with
    | Except.ok result =>
      jsMapSet reg1 requestId
        { pendingRequest with status := JobStatus.completed,
                              result := some result }
    | Except.error e =>
      jsMapSet reg1 requestId
        { pendingRequest with status := JobStatus.error, error := some e }

/-- The successive registry states while processLLMRequest runs: after
the flip to processing, and after the terminal write. -/
def processLLMRequestStates (reg : Registry) (requestId : String)
    (resolution : Except String LLMResponse) : List Registry :=
  match jsMapGet reg requestId with
  | none => [reg]
  | some pendingRequest =>
    [jsMapSet reg requestId
      { pendingRequest with status := JobStatus.processing },
     processLLMRequest reg requestId resolution]

/-- startLLMRequest (background.ts lines 124-150): insert a pending job
under the given id (the source uses the caller-supplied requestId or a
generated `req_<time>_<random>` string, modelled here by the `id`
parameter), kick off processing, and return the id to the submitter. -/
def startLLMRequest (reg : Registry) (id tabUrl : String) (now : Int)
    (resolution : Except String LLMResponse) : String × Registry :=
  let pendingRequest : PendingRequest :=
    { id := id, tabUrl := tabUrl, status := JobStatus.pending, timestamp := now }
  let reg0 := jsMapSet reg id pendingRequest
  (id, processLLMRequest reg0 id resolution)

/-- The registry states over the whole lifecycle of one submitted job:
right after submission, after the flip to processing, and after the
terminal write. -/
def llmRequestStates (reg : Registry) (id tabUrl : String) (now : Int)
    (resolution : Except String LLMResponse) : List Registry :=
  let reg0 := jsMapSet reg id
    { id := id, tabUrl := tabUrl, status := JobStatus.pending, timestamp := now }
  reg0 :: processLLMRequestStates reg0 id resolution

/-- The job's status as observed through getRequestStatus at each point
of its lifecycle. -/
def observedStatuses (reg : Registry) (id tabUrl : String) (now : Int)
    (resolution : Except String LLMResponse) : List (Option JobStatus) :=
  (llmRequestStates reg id tabUrl now resolution).map
    (fun r => (getRequestStatus r id).map PendingRequest.status)

/-- The terminal status a resolution outcome is recorded with. -/
def terminalStatus : Except String LLMResponse → JobStatus
  | Except.ok _ => JobStatus.completed
  | Except.error _ => JobStatus.error

/-- Position of a status in the lifecycle order
pending → processing → {completed | error}. -/
def statusRank : JobStatus → Nat
  | JobStatus.pending => 0
  | JobStatus.processing => 1
  | JobStatus.completed => 2
  | JobStatus.error => 2

def statusRankOpt : Option JobStatus → Nat
  | none => 0
  | some s => statusRank s

def isTerminalOpt : Option JobStatus → Bool
  | some JobStatus.completed => true
  | some JobStatus.error => true
  | _ => false

/-- Claim C4: over the lifecycle of any job created by startLLMRequest,
the statuses observable through getRequestStatus are exactly
pending, processing, then completed (successful resolution) or error
(resolution threw): every observed sequence is a prefix of
pending → processing → {completed | error} up to repetition, the rank
never regresses, and a terminal status never changes afterwards. -/
theorem job_status_monotonic (reg : Registry) (id tabUrl : String)
    (now : Int) (resolution : Except String LLMResponse) :
    observedStatuses reg id tabUrl now resolution =
      [some JobStatus.pending, some JobStatus.processing,
        some (terminalStatus resolution)]
    ∧ List.Pairwise
        (fun a b => statusRankOpt a ≤ statusRankOpt b
          ∧ (isTerminalOpt a = true → b = a))
        (observedStatuses reg id tabUrl now resolution) := by
  have hobs : observedStatuses reg id tabUrl now resolution =
      [some JobStatus.pending, some JobStatus.processing,
        some (terminalStatus resolution)] := by
    cases resolution with
    | ok r =>
      simp [observedStatuses, llmRequestStates, processLLMRequestStates,
        processLLMRequest, getRequestStatus, jsMapGet_set_self, terminalStatus]
    | error e =>
      simp [observedStatuses, llmRequestStates, processLLMRequestStates,
        processLLMRequest, getRequestStatus, jsMapGet_set_self, terminalStatus]
  refine ⟨hobs, ?_⟩
  rw [hobs]
  cases resolution with
  | ok r => simp only [terminalStatus]; decide
  | error e => simp only [terminalStatus]; decide

/-- Claim C4 (witness): the lifecycle statuses at a concrete input. -/
theorem job_status_monotonic_witness :
    observedStatuses [] "req_1" "https://example.com" 0
        (Except.ok { summary := "s" }) =
      [some JobStatus.pending, some JobStatus.processing,
        some JobStatus.completed] :=
  (job_status_monotonic [] "req_1" "https://example.com" 0
    (Except.ok { summary := "s" })).1

/-- Claim C9 (counterexample): the claim says an exception raised by the
resolution path is recorded by setting the job's status to 'error'. When
the backend call throws (here with message "API request failed"),
callLLMAPI catches it and returns a normal response whose error field
carries the message, so processLLMRequest records the job as
status 'completed' with result.error set — not as status 'error'. -/
theorem llm_exception_recorded_as_completed :
    ((getRequestStatus
        (startLLMRequest [] "req_1" "https://example.com" 0
          (Except.ok (callLLMAPI none
            (Except.error "API request failed")))).2 "req_1").map
      PendingRequest.status = some JobStatus.completed)
    ∧ ((getRequestStatus
        (startLLMRequest [] "req_1" "https://example.com" 0
          (Except.ok (callLLMAPI none
            (Except.error "API request failed")))).2 "req_1").map
      PendingRequest.status ≠ some JobStatus.error)
    ∧ ((getRequestStatus
        (startLLMRequest [] "req_1" "https://example.com" 0
          (Except.ok (callLLMAPI none
            (Except.error "API request failed")))).2 "req_1").bind
      PendingRequest.result =
        some { summary := "", error := some "API request failed" }) := by
  refine ⟨rfl, by decide, rfl⟩

/-- Claim C9 (amended): startLLMRequest always returns the job id to the
submitter (the embedding is a total function: no exception crosses the
submission boundary), and every exception of the resolution path is
caught and made retrievable via polling: an exception thrown inside
callLLMAPI (cache lookup, backend call, cache write) is caught there and
recorded with job status 'completed' and the message in the result's
error field, while an exception that escaped the awaited call itself
would be caught by processLLMRequest and recorded with job status
'error' and the message in the job's error field. -/
theorem startLLMRequest_no_exception_escapes (reg : Registry)
    (id tabUrl : String) (now : Int) (cached : Option (String × Int))
    (backend : Except String LLMResponse) :
    ((startLLMRequest reg id tabUrl now
        (Except.ok (callLLMAPI cached backend))).1 = id)
    ∧ (∃ req : PendingRequest,
        getRequestStatus (startLLMRequest reg id tabUrl now
          (Except.ok (callLLMAPI cached backend))).2 id = some req
        ∧ req.status = JobStatus.completed
        ∧ (cached = none → ∀ msg, backend = Except.error msg →
            req.result = some { summary := "", error := some msg }))
    ∧ (∀ e : String, ∃ req : PendingRequest,
        getRequestStatus (processLLMRequest
          (jsMapSet reg id
            (⟨id, tabUrl, JobStatus.pending, none, none, now⟩ : PendingRequest))
          id (Except.error e)) id = some req
        ∧ req.status = JobStatus.error ∧ req.error = some e) := by
  refine ⟨rfl, ?_, ?_⟩
  · refine ⟨⟨id, tabUrl, JobStatus.completed,
      some (callLLMAPI cached backend), none, now⟩, ?_, rfl, ?_⟩
    · simp [startLLMRequest, processLLMRequest, getRequestStatus,
        jsMapGet_set_self]
    · intro hc msg hb
      subst hc
      subst hb
      rfl
  · intro e
    refine ⟨⟨id, tabUrl, JobStatus.error, none, some e, now⟩, ?_, rfl, rfl⟩
    simp [processLLMRequest, getRequestStatus, jsMapGet_set_self]

/-- Claim C9 (witness for the amended theorem at a concrete input). -/
theorem startLLMRequest_no_exception_escapes_witness :
    ((startLLMRequest [] "req_1" "https://example.com" 0
        (Except.ok (callLLMAPI none (Except.error "boom")))).1 = "req_1")
    ∧ (∃ req : PendingRequest,
        getRequestStatus (startLLMRequest [] "req_1" "https://example.com" 0
          (Except.ok (callLLMAPI none (Except.error "boom")))).2 "req_1" =
            some req
        ∧ req.status = JobStatus.completed
        ∧ (none = (none : Option (String × Int)) → ∀ msg : String,
            Except.error "boom" = (Except.error msg : Except String LLMResponse) →
            req.result = some { summary := "", error := some msg })) := by
  have h := startLLMRequest_no_exception_escapes [] "req_1"
    "https://example.com" 0 none (Except.error "boom")
  exact ⟨h.1, h.2.1⟩

/-- CacheEntry (cache.ts lines 3-9). -/
structure CacheEntry where
  url : String
  language : String
  response : String
  timestamp : Int
  model : String
deriving DecidableEq

/-- CacheStorage (cache.ts lines 11-13): a JS object keyed by cache key. -/
abbrev CacheStorage := List (String × CacheEntry)

/-- Cache statistics (cache.ts lines 142-163). The source formats the
oldest/newest timestamps as locale date strings; they are modelled here
as the raw timestamps. -/
structure CacheStats where
  size : Nat
  oldestEntry : Option Int := none
  newestEntry : Option Int := none
deriving DecidableEq

namespace SummaryCache

/-- MAX_CACHE_SIZE (cache.ts line 17). -/
def MAX_CACHE_SIZE : Nat := 100

/-- CACHE_EXPIRY_DAYS (cache.ts line 18). -/
def CACHE_EXPIRY_DAYS : Nat := 1

/-- createCacheKey (cache.ts lines 26-28). -/
def createCacheKey (url language : String) : String :=
  url ++ "|" ++ language

/-- SummaryCache.remove (cache.ts lines 113-125). -/
def remove (cache : CacheStorage) (url language : String) : CacheStorage :=
  jsMapDelete cache (createCacheKey url language)

/-- SummaryCache.get (cache.ts lines 36-64): returns the stored response
unless the entry is absent or expired; an expired entry is removed. The
storage read is modelled by the `cache` argument, and the possibly
updated storage is returned alongside the result. -/
def get (cache : CacheStorage) (url language : String) (now : Int) :
    Option String × CacheStorage :=
  let cacheKey := createCacheKey url language
  match jsMapGet cache cacheKey with
  | none => (none, cache)
  | some entry =>
    let expiryTime :=
      entry.timestamp + (CACHE_EXPIRY_DAYS : Int) * 24 * 60 * 60 * 1000
    if expiryTime < now then
      (none, remove cache url language)
    else
      (some entry.response, cache)

/-- SummaryCache.set (cache.ts lines 73-106): insert/overwrite the
entry, then if the entry count exceeds MAX_CACHE_SIZE, sort the entries
by timestamp ascending and delete the oldest excess entries. -/
def set (cache : CacheStorage) (url language response model : String)
    (now : Int) : CacheStorage :=
  let cacheKey := createCacheKey url language
  let cache1 := jsMapSet cache cacheKey
    { url := url, language := language, response := response,
      timestamp := now, model := model }
  let entries := cache1.map Prod.snd
  if MAX_CACHE_SIZE < entries.length then
    let sorted := List.insertionSort
      (fun a b : CacheEntry => a.timestamp ≤ b.timestamp) entries
    let entriesToRemove := sorted.take (entries.length - MAX_CACHE_SIZE)
    entriesToRemove.foldl
      (fun c entry => jsMapDelete c (createCacheKey entry.url entry.language))
      cache1
  else
    cache1

/-- SummaryCache.getStats (cache.ts lines 142-163). -/
def getStats (cache : CacheStorage) : CacheStats :=
  let entries := cache.map Prod.snd
  let size := entries.length
  if size = 0 then
    { size := 0 }
  else
    let sorted := List.insertionSort
      (fun a b : CacheEntry => a.timestamp ≤ b.timestamp) entries
    { size := size,
      oldestEntry := sorted.head?.map CacheEntry.timestamp,
      newestEntry := sorted.getLast?.map CacheEntry.timestamp }

end SummaryCache

theorem getStats_size (cache : CacheStorage) :
    (SummaryCache.getStats cache).size = cache.length := by
  simp only [SummaryCache.getStats, List.length_map]
  by_cases h : cache.length = 0
  · rw [if_pos h]
    exact h.symm
  · rw [if_neg h]

theorem jsMapDelete_of_forall_ne {β : Type} (m : List (String × β))
    (k : String) (h : ∀ p ∈ m, p.1 ≠ k) : jsMapDelete m k = m := by
  induction m with
  | nil => rfl
  | cons p rest ih =>
    obtain ⟨k0, v0⟩ := p
    rw [jsMapDelete]
    rw [if_neg (h (k0, v0) (List.mem_cons_self _ _))]
    rw [ih (fun q hq => h q (List.mem_cons_of_mem _ hq))]

theorem jsMapDelete_length {β : Type} (m : List (String × β)) (k : String)
    (v : β) (hnd : (m.map Prod.fst).Nodup) (h : jsMapGet m k = some v) :
    (jsMapDelete m k).length + 1 = m.length := by
  induction m with
  | nil => simp [jsMapGet] at h
  | cons p rest ih =>
    obtain ⟨k0, v0⟩ := p
    rw [List.map_cons, List.nodup_cons] at hnd
    rw [jsMapGet] at h
    by_cases h0 : k0 = k
    · subst h0
      rw [jsMapDelete, if_pos rfl]
      rw [jsMapDelete_of_forall_ne rest k0 ?_]
      · simp
      · intro q hq hqk
        have hm : q.1 ∈ rest.map Prod.fst := List.mem_map_of_mem Prod.fst hq
        rw [hqk] at hm
        exact hnd.1 hm
    · rw [if_neg h0] at h
      rw [jsMapDelete, if_neg h0, List.length_cons, List.length_cons,
        ih hnd.2 h]

/-- Claim C2: for a stored entry with timestamp t, SummaryCache.get
returns the stored payload iff now - t ≤ expiryDays × 86400000 (with
expiryDays = CACHE_EXPIRY_DAYS = 1); when the bound is exceeded the call
returns a miss, the entry is deleted, and it no longer contributes to
getStats (the size shrinks by one and the key no longer resolves); when
the bound is met the storage is left unchanged. -/
theorem cache_ttl (cache : CacheStorage) (url language : String)
    (now : Int) (e : CacheEntry)
    (hnd : (cache.map Prod.fst).Nodup)
    (hent : jsMapGet cache (SummaryCache.createCacheKey url language) =
      some e) :
    ((SummaryCache.get cache url language now).1 = some e.response ↔
      now - e.timestamp ≤ (SummaryCache.CACHE_EXPIRY_DAYS : Int) * 86400000)
    ∧ ((SummaryCache.CACHE_EXPIRY_DAYS : Int) * 86400000 < now - e.timestamp →
        (SummaryCache.get cache url language now).1 = none
        ∧ jsMapGet (SummaryCache.get cache url language now).2
            (SummaryCache.createCacheKey url language) = none
        ∧ (SummaryCache.getStats
            (SummaryCache.get cache url language now).2).size + 1 =
          (SummaryCache.getStats cache).size)
    ∧ (now - e.timestamp ≤ (SummaryCache.CACHE_EXPIRY_DAYS : Int) * 86400000 →
        (SummaryCache.get cache url language now).2 = cache) := by
  have hday : (SummaryCache.CACHE_EXPIRY_DAYS : Int) * 24 * 60 * 60 * 1000 =
      (SummaryCache.CACHE_EXPIRY_DAYS : Int) * 86400000 := by
    rw [SummaryCache.CACHE_EXPIRY_DAYS]
    norm_num
  by_cases hexp :
      e.timestamp + (SummaryCache.CACHE_EXPIRY_DAYS : Int) * 24 * 60 * 60 * 1000
        < now
  · have hget : SummaryCache.get cache url language now =
        (none, SummaryCache.remove cache url language) := by
      simp only [SummaryCache.get, hent]
      rw [if_pos hexp]
    rw [hget]
    rw [hday] at hexp
    refine ⟨?_, ?_, ?_⟩
    · simp only
      constructor
      · intro h
        exact absurd h (by simp)
      · intro h
        omega
    · intro _
      refine ⟨rfl, ?_, ?_⟩
      · exact jsMapGet_delete_self cache _
      · rw [getStats_size, getStats_size]
        exact jsMapDelete_length cache _ e hnd hent
    · intro h
      omega
  · have hget : SummaryCache.get cache url language now =
        (some e.response, cache) := by
      simp only [SummaryCache.get, hent]
      rw [if_neg hexp]
    rw [hget]
    rw [hday] at hexp
    refine ⟨?_, ?_, ?_⟩
    · simp only
      constructor
      · intro _
        omega
      · intro _
        trivial
    · intro h
      omega
    · intro _
      rfl

/-- Claim C2 (witness): at now = 86400001 an entry stored at time 0 with
expiry bound 86400000 is expired: get misses, the entry is gone, and the
stats size drops from 1 to 0. -/
theorem cache_ttl_witness :
    ((SummaryCache.get
        [(SummaryCache.createCacheKey "https://e.com" "english",
          ⟨"https://e.com", "english", "resp", 0, "portkey"⟩)]
        "https://e.com" "english" 86400001).1 = none)
    ∧ (SummaryCache.getStats
        (SummaryCache.get
          [(SummaryCache.createCacheKey "https://e.com" "english",
            ⟨"https://e.com", "english", "resp", 0, "portkey"⟩)]
          "https://e.com" "english" 86400001).2).size + 1 =
      (SummaryCache.getStats
        [(SummaryCache.createCacheKey "https://e.com" "english",
          ⟨"https://e.com", "english", "resp", 0, "portkey"⟩)]).size := by
  have h := cache_ttl
    [(SummaryCache.createCacheKey "https://e.com" "english",
      ⟨"https://e.com", "english", "resp", 0, "portkey"⟩)]
    "https://e.com" "english" 86400001
    ⟨"https://e.com", "english", "resp", 0, "portkey"⟩
    (by simp) (by simp [jsMapGet])
  have hlt : (SummaryCache.CACHE_EXPIRY_DAYS : Int) * 86400000 <
      86400001 - (⟨"https://e.com", "english", "resp", 0, "portkey"⟩ :
        CacheEntry).timestamp := by
    rw [SummaryCache.CACHE_EXPIRY_DAYS]
    norm_num
  exact ⟨(h.2.1 hlt).1, (h.2.1 hlt).2.2⟩

/-- One recorded SummaryCache.set call (its arguments plus the Date.now()
value observed during the call). -/
structure SetOp where
  url : String
  language : String
  response : String
  model : String
  timestamp : Int
deriving DecidableEq

/-- The cache contents produced by a sequence of SummaryCache.set calls
starting from the empty storage. -/
def applySets (ops : List SetOp) : CacheStorage :=
  ops.foldl (fun cache op =>
    SummaryCache.set cache op.url op.language op.response op.model
      op.timestamp) []

theorem jsMapGet_set_cases {β : Type} (m : List (String × β))
    (k key : String) (v value : β)
    (h : jsMapGet (jsMapSet m key value) k = some v) :
    (k = key ∧ v = value) ∨ jsMapGet m k = some v := by
  by_cases hk : k = key
  · subst hk
    rw [jsMapGet_set_self] at h
    exact Or.inl ⟨rfl, (Option.some.inj h).symm⟩
  · rw [jsMapGet_set_ne m key k value hk] at h
    exact Or.inr h

theorem jsMapGet_foldl_delete_some {β γ : Type} (f : γ → String)
    (l : List γ) (m : List (String × β)) (k : String) (v : β)
    (h : jsMapGet (l.foldl (fun c x => jsMapDelete c (f x)) m) k = some v) :
    jsMapGet m k = some v := by
  induction l generalizing m with
  | nil => exact h
  | cons x rest ih =>
    rw [List.foldl_cons] at h
    have h2 := ih (jsMapDelete m (f x)) h
    by_cases hk : k = f x
    · subst hk
      rw [jsMapGet_delete_self] at h2
      exact absurd h2 (by simp)
    · rw [jsMapGet_delete_ne m (f x) k hk] at h2
      exact h2

/-- Every binding readable after a SummaryCache.set was either already
readable before the call or is the binding that set just wrote. -/
theorem set_provenance (c : CacheStorage) (url language response model : String)
    (now : Int) (k : String) (e : CacheEntry)
    (h : jsMapGet (SummaryCache.set c url language response model now) k =
      some e) :
    jsMapGet c k = some e ∨
      (k = SummaryCache.createCacheKey url language ∧
        e = ⟨url, language, response, now, model⟩) := by
  simp only [SummaryCache.set] at h
  split at h
  · have h2 := jsMapGet_foldl_delete_some
      (fun entry : CacheEntry =>
        SummaryCache.createCacheKey entry.url entry.language) _ _ _ _ h
    rcases jsMapGet_set_cases _ _ _ _ _ h2 with ⟨hk, hv⟩ | hold
    · exact Or.inr ⟨hk, hv⟩
    · exact Or.inl hold
  · rcases jsMapGet_set_cases _ _ _ _ _ h with ⟨hk, hv⟩ | hold
    · exact Or.inr ⟨hk, hv⟩
    · exact Or.inl hold

/-- Every binding readable after a sequence of SummaryCache.set calls was
written by one of them (or was present initially). -/
theorem foldl_set_provenance :
    ∀ (ops : List SetOp) (c : CacheStorage) (k : String) (e : CacheEntry),
      jsMapGet (ops.foldl (fun cache op =>
        SummaryCache.set cache op.url op.language op.response op.model
          op.timestamp) c) k = some e →
      jsMapGet c k = some e ∨
        ∃ op ∈ ops, k = SummaryCache.createCacheKey op.url op.language ∧
          e = ⟨op.url, op.language, op.response, op.timestamp, op.model⟩ := by
  intro ops
  induction ops with
  | nil =>
    intro c k e h
    exact Or.inl h
  | cons op rest ih =>
    intro c k e h
    rw [List.foldl_cons] at h
    rcases ih _ k e h with hbase | ⟨op', hop', hk, he⟩
    · rcases set_provenance c op.url op.language op.response op.model
        op.timestamp k e hbase with hold | ⟨hk, he⟩
      · exact Or.inl hold
      · exact Or.inr ⟨op, List.mem_cons_self _ _, hk, he⟩
    · exact Or.inr ⟨op', List.mem_cons_of_mem _ hop', hk, he⟩

/-- In a list concatenation a ++ '|' :: b where a is pipe-free, the
position of the pipe determines the split uniquely. -/
theorem append_pipe_cons_inj :
    ∀ (a c b d : List Char), '|' ∉ a → '|' ∉ c →
      a ++ '|' :: b = c ++ '|' :: d → a = c ∧ b = d := by
  intro a
  induction a with
  | nil =>
    intro c b d _ hc h
    cases c with
    | nil =>
      rw [List.nil_append, List.nil_append] at h
      exact ⟨rfl, (List.cons.inj h).2⟩
    | cons y c' =>
      rw [List.nil_append, List.cons_append] at h
      obtain ⟨h1, _⟩ := List.cons.inj h
      exact absurd (by rw [← h1]; exact List.mem_cons_self _ _) hc
  | cons x a' ih =>
    intro c b d ha hc h
    cases c with
    | nil =>
      rw [List.nil_append, List.cons_append] at h
      obtain ⟨h1, _⟩ := List.cons.inj h
      exact absurd (by rw [h1]; exact List.mem_cons_self _ _) ha
    | cons y c' =>
      rw [List.cons_append, List.cons_append] at h
      obtain ⟨h1, h2⟩ := List.cons.inj h
      obtain ⟨ha1, hb1⟩ := ih c' b d
        (fun hm => ha (List.mem_cons_of_mem _ hm))
        (fun hm => hc (List.mem_cons_of_mem _ hm)) h2
      exact ⟨by rw [h1, ha1], hb1⟩

/-- createCacheKey is injective on pipe-free urls. -/
theorem createCacheKey_inj (u l u' l' : String)
    (hu : '|' ∉ u.data) (hu' : '|' ∉ u'.data)
    (h : SummaryCache.createCacheKey u l = SummaryCache.createCacheKey u' l') :
    u = u' ∧ l = l' := by
  have hpipe : ("|" : String).data = ['|'] := rfl
  have hd : u.data ++ '|' :: l.data = u'.data ++ '|' :: l'.data := by
    have h2 := congrArg String.data h
    simpa [SummaryCache.createCacheKey, String.data_append, hpipe] using h2
  obtain ⟨h1, h2⟩ := append_pipe_cons_inj u.data u'.data l.data l'.data hu hu' hd
  exact ⟨String.ext h1, String.ext h2⟩

/-- Inversion of a successful SummaryCache.get: some entry is stored at
exactly the requested key and carries the returned payload. -/
theorem get_some_inv (cache : CacheStorage) (url language : String)
    (now : Int) (p : String)
    (h : (SummaryCache.get cache url language now).1 = some p) :
    ∃ e, jsMapGet cache (SummaryCache.createCacheKey url language) = some e
      ∧ e.response = p := by
  rcases hm : jsMapGet cache (SummaryCache.createCacheKey url language) with
    _ | e
  · simp only [SummaryCache.get, hm] at h
    exact absurd h (by simp)
  · simp only [SummaryCache.get, hm] at h
    by_cases hexp :
        e.timestamp + (SummaryCache.CACHE_EXPIRY_DAYS : Int) * 24 * 60 * 60 * 1000
          < now
    · rw [if_pos hexp] at h
      exact absurd h (by simp)
    · rw [if_neg hexp] at h
      simp only at h
      exact ⟨e, rfl, Option.some.inj h⟩

/-- Claim C8 (counterexample): cache keys are the plain concatenation
url + "|" + language, which aliases distinct pairs when the url itself
contains a pipe: a payload stored under ("a|b", "c") is returned for the
request ("a", "b|c"), a different (resource identifier, language
variant) pair. -/
theorem cache_key_aliasing :
    ((SummaryCache.get (applySets [⟨"a|b", "c", "payload", "m", 0⟩])
        "a" "b|c" 0).1 = some "payload")
    ∧ ¬("a|b" = "a" ∧ "c" = "b|c") := by
  exact ⟨by decide, by decide⟩

/-- Claim C8 (amended): whenever SummaryCache.get(url, language) returns
a payload on a cache built by a sequence of set calls, that payload was
stored by a set(url', language', ...) whose concatenated key
url' + "|" + language' equals url + "|" + language; when the urls
involved contain no "|" character this forces url' = url and
language' = language, but with a pipe inside a url two distinct pairs
can alias to the same key. -/
theorem cache_exact_key_matching (ops : List SetOp) (url language : String)
    (now : Int) (p : String)
    (hget : (SummaryCache.get (applySets ops) url language now).1 = some p) :
    ∃ op ∈ ops,
      SummaryCache.createCacheKey op.url op.language =
        SummaryCache.createCacheKey url language
      ∧ op.response = p
      ∧ (('|' ∉ url.data) → ('|' ∉ op.url.data) →
          op.url = url ∧ op.language = language) := by
  obtain ⟨e, hm, hep⟩ := get_some_inv _ _ _ _ _ hget
  rw [applySets] at hm
  rcases foldl_set_provenance ops [] _ e hm with hbase | ⟨op, hop, hk, he⟩
  · exact absurd hbase (by simp [jsMapGet])
  · refine ⟨op, hop, hk.symm, ?_, ?_⟩
    · rw [he] at hep
      exact hep
    · intro hu hou
      exact createCacheKey_inj op.url op.language url language hou hu hk.symm

/-- Claim C8 (witness for the amended theorem at a concrete input). -/
theorem cache_exact_key_matching_witness :
    ∃ op ∈ [(⟨"https://e.com", "english", "resp", "portkey", 0⟩ : SetOp)],
      SummaryCache.createCacheKey op.url op.language =
        SummaryCache.createCacheKey "https://e.com" "english"
      ∧ op.response = "resp"
      ∧ (('|' ∉ "https://e.com".data) → ('|' ∉ op.url.data) →
          op.url = "https://e.com" ∧ op.language = "english") :=
  cache_exact_key_matching
    [⟨"https://e.com", "english", "resp", "portkey", 0⟩]
    "https://e.com" "english" 0 "resp" (by decide)

/-- The cache key a set call writes under. -/
def keyOf (op : SetOp) : String :=
  SummaryCache.createCacheKey op.url op.language

/-- The cache entry a set call writes. -/
def entryOf (op : SetOp) : CacheEntry :=
  ⟨op.url, op.language, op.response, op.timestamp, op.model⟩

/-- The binding a set call writes. -/
def pairOf (op : SetOp) : String × CacheEntry :=
  (keyOf op, entryOf op)

/-- Keep only the first occurrence of each key. -/
def dedupByKey : List SetOp → List SetOp
  | [] => []
  | op :: rest => op :: (dedupByKey rest).filter (fun o => ¬ keyOf o = keyOf op)

/-- The per-key last writes of a set sequence, most recent first. -/
def liveOps (ops : List SetOp) : List SetOp :=
  dedupByKey ops.reverse

/-- How many live entries carry a timestamp strictly newer than t. -/
def countNewerLive (ops : List SetOp) (t : Int) : Nat :=
  ((liveOps ops).filter (fun o => t < o.timestamp)).length

/-- The bindings the cache should hold after a set sequence: the
MAX_CACHE_SIZE most recent per-key last writes. -/
def cacheOf (ops : List SetOp) : CacheStorage :=
  ((liveOps ops).take SummaryCache.MAX_CACHE_SIZE).map pairOf

theorem dedupByKey_sublist : ∀ l : List SetOp, (dedupByKey l).Sublist l := by
  intro l
  induction l with
  | nil => exact List.Sublist.refl []
  | cons op rest ih =>
    rw [dedupByKey]
    exact List.Sublist.cons₂ op ((List.filter_sublist _).trans ih)

theorem liveOps_sublist (ops : List SetOp) :
    (liveOps ops).Sublist ops.reverse :=
  dedupByKey_sublist ops.reverse

theorem mem_of_mem_liveOps {ops : List SetOp} {o : SetOp}
    (h : o ∈ liveOps ops) : o ∈ ops :=
  List.mem_reverse.mp ((liveOps_sublist ops).mem h)

theorem dedupByKey_keys_nodup : ∀ l : List SetOp,
    ((dedupByKey l).map keyOf).Nodup := by
  intro l
  induction l with
  | nil => exact List.nodup_nil
  | cons op rest ih =>
    rw [dedupByKey, List.map_cons, List.nodup_cons]
    constructor
    · intro hmem
      obtain ⟨o, ho, hko⟩ := List.mem_map.mp hmem
      have := (List.mem_filter.mp ho).2
      rw [decide_eq_true_eq] at this
      exact this hko
    · exact List.Nodup.sublist
        (List.Sublist.map keyOf (List.filter_sublist _)) ih

theorem liveOps_keys_nodup (ops : List SetOp) :
    ((liveOps ops).map keyOf).Nodup :=
  dedupByKey_keys_nodup ops.reverse

theorem liveOps_append_singleton (ops : List SetOp) (op : SetOp) :
    liveOps (ops ++ [op]) =
      op :: (liveOps ops).filter (fun o => ¬ keyOf o = keyOf op) := by
  rw [liveOps, List.reverse_append]
  rfl

theorem liveOps_sorted {ops : List SetOp}
    (hinc : ops.Pairwise (fun a b => a.timestamp < b.timestamp)) :
    (liveOps ops).Pairwise (fun a b => b.timestamp < a.timestamp) := by
  have hrev : ops.reverse.Pairwise (fun a b => b.timestamp < a.timestamp) :=
    List.pairwise_reverse.mpr hinc
  exact List.Pairwise.sublist (liveOps_sublist ops) hrev

theorem jsMapGet_eq_none_iff {β : Type} (m : List (String × β)) (k : String) :
    jsMapGet m k = none ↔ k ∉ m.map Prod.fst := by
  induction m with
  | nil => simp [jsMapGet]
  | cons p rest ih =>
    obtain ⟨k0, v0⟩ := p
    rw [jsMapGet]
    by_cases h : k0 = k
    · subst h
      simp
    · simp [h, ih, Ne.symm h]

theorem jsMapGet_eq_some_iff_mem {β : Type} (m : List (String × β))
    (hnd : (m.map Prod.fst).Nodup) (k : String) (v : β) :
    jsMapGet m k = some v ↔ (k, v) ∈ m := by
  induction m with
  | nil => simp [jsMapGet]
  | cons p rest ih =>
    obtain ⟨k0, v0⟩ := p
    rw [List.map_cons, List.nodup_cons] at hnd
    rw [jsMapGet]
    by_cases h : k0 = k
    · subst h
      rw [if_pos rfl]
      constructor
      · intro hv
        obtain rfl := Option.some.inj hv
        exact List.mem_cons_self _ _
      · intro hv
        rcases List.mem_cons.mp hv with heq | hmem
        · rw [(Prod.mk.inj heq).2]
        · exact absurd (List.mem_map_of_mem Prod.fst hmem) hnd.1
    · rw [if_neg h, ih hnd.2]
      constructor
      · intro hv
        exact List.mem_cons_of_mem _ hv
      · intro hv
        rcases List.mem_cons.mp hv with heq | hmem
        · exact absurd (Prod.mk.inj heq).1.symm h
        · exact hmem

theorem jsMapGet_congr_perm {β : Type} {m m' : List (String × β)}
    (hperm : m.Perm m') (hnd : (m.map Prod.fst).Nodup) (k : String) :
    jsMapGet m k = jsMapGet m' k := by
  have hnd' : (m'.map Prod.fst).Nodup :=
    ((hperm.map Prod.fst).nodup_iff).mp hnd
  rcases hv : jsMapGet m k with _ | v
  · rw [jsMapGet_eq_none_iff] at hv
    have hk : k ∉ m'.map Prod.fst := fun hk =>
      hv (((hperm.map Prod.fst).mem_iff).mpr hk)
    exact ((jsMapGet_eq_none_iff m' k).mpr hk).symm
  · rw [jsMapGet_eq_some_iff_mem m hnd] at hv
    exact ((jsMapGet_eq_some_iff_mem m' hnd' k v).mpr
      (hperm.mem_iff.mp hv)).symm

theorem jsMapSet_eq_append_of_not_mem {β : Type} (m : List (String × β))
    (k : String) (v : β) (h : k ∉ m.map Prod.fst) :
    jsMapSet m k v = m ++ [(k, v)] := by
  induction m with
  | nil => rfl
  | cons p rest ih =>
    obtain ⟨k0, v0⟩ := p
    rw [List.map_cons, List.mem_cons] at h
    push_neg at h
    rw [jsMapSet, if_neg (Ne.symm h.1), List.cons_append, ih h.2]

theorem keys_jsMapSet_of_mem {β : Type} (m : List (String × β)) (k : String)
    (v : β) (h : k ∈ m.map Prod.fst) :
    (jsMapSet m k v).map Prod.fst = m.map Prod.fst := by
  induction m with
  | nil => simp at h
  | cons p rest ih =>
    obtain ⟨k0, v0⟩ := p
    by_cases h0 : k0 = k
    · subst h0
      rw [jsMapSet, if_pos rfl, List.map_cons, List.map_cons]
    · rw [List.map_cons, List.mem_cons] at h
      rcases h with h | h
      · exact absurd h.symm h0
      · rw [jsMapSet, if_neg h0, List.map_cons, List.map_cons, ih h]

theorem jsMapSet_keys_nodup {β : Type} (m : List (String × β)) (k : String)
    (v : β) (hnd : (m.map Prod.fst).Nodup) :
    ((jsMapSet m k v).map Prod.fst).Nodup := by
  by_cases h : k ∈ m.map Prod.fst
  · rw [keys_jsMapSet_of_mem m k v h]
    exact hnd
  · rw [jsMapSet_eq_append_of_not_mem m k v h, List.map_append]
    simp only [List.map_cons, List.map_nil]
    rw [List.nodup_append]
    exact ⟨hnd, List.nodup_singleton k,
      fun a ha hb => h ((List.mem_singleton.mp hb) ▸ ha)⟩

theorem jsMapSet_length_of_mem {β : Type} (m : List (String × β))
    (k : String) (v : β) (h : k ∈ m.map Prod.fst) :
    (jsMapSet m k v).length = m.length := by
  have h2 := congrArg List.length (keys_jsMapSet_of_mem m k v h)
  simpa using h2

theorem filter_key_eq_self {β : Type} (m : List (String × β)) (k : String)
    (h : k ∉ m.map Prod.fst) :
    m.filter (fun p => ¬ p.1 = k) = m := by
  rw [List.filter_eq_self]
  intro p hp
  rw [decide_eq_true_eq]
  intro hpk
  exact h (hpk ▸ List.mem_map_of_mem Prod.fst hp)

theorem jsMapSet_perm_of_mem {β : Type} (m : List (String × β)) (k : String)
    (v : β) (hnd : (m.map Prod.fst).Nodup) (h : k ∈ m.map Prod.fst) :
    (jsMapSet m k v).Perm ((k, v) :: m.filter (fun p => ¬ p.1 = k)) := by
  induction m with
  | nil => simp at h
  | cons p rest ih =>
    obtain ⟨k0, v0⟩ := p
    rw [List.map_cons, List.nodup_cons] at hnd
    by_cases h0 : k0 = k
    · subst h0
      rw [jsMapSet, if_pos rfl, List.filter_cons]
      rw [if_neg (by simp)]
      rw [filter_key_eq_self rest k0 hnd.1]
    · rw [jsMapSet, if_neg h0]
      have hmem : k ∈ rest.map Prod.fst := by
        rcases List.mem_cons.mp h with h1 | h1
        · exact absurd h1.symm h0
        · exact h1
      have ihp := ih hnd.2 hmem
      rw [List.filter_cons, if_pos (decide_eq_true h0)]
      exact (ihp.cons (k0, v0)).trans (List.Perm.swap (k, v) (k0, v0) _)

theorem jsMapDelete_eq_filter {β : Type} (m : List (String × β))
    (k : String) :
    jsMapDelete m k = m.filter (fun p => ¬ p.1 = k) := by
  induction m with
  | nil => rfl
  | cons p rest ih =>
    obtain ⟨k0, v0⟩ := p
    rw [jsMapDelete, List.filter_cons]
    by_cases h0 : k0 = k
    · rw [if_pos h0, if_neg (by simp [h0]), ih]
    · rw [if_neg h0, if_pos (decide_eq_true h0), ih]

theorem filter_keyOf_eq_self (l : List SetOp) (k0 : String)
    (h : k0 ∉ l.map keyOf) :
    l.filter (fun o => ¬ keyOf o = k0) = l := by
  rw [List.filter_eq_self]
  intro o ho
  rw [decide_eq_true_eq]
  intro hok
  exact h (hok ▸ List.mem_map_of_mem keyOf ho)

theorem filter_key_map_pairOf (l : List SetOp) (k0 : String) :
    (l.map pairOf).filter (fun p => ¬ p.1 = k0) =
      (l.filter (fun o => ¬ keyOf o = k0)).map pairOf := by
  induction l with
  | nil => rfl
  | cons o rest ih =>
    rw [List.map_cons, List.filter_cons, List.filter_cons]
    by_cases h : keyOf o = k0
    · rw [if_neg (by simp [pairOf, h]), if_neg (by simp [h]), ih]
    · rw [if_pos (by simp [pairOf, h]), if_pos (by simp [h]),
        List.map_cons, ih]

theorem filter_take_of_not_mem_keys (k0 : String) :
    ∀ (L : List SetOp) (n : Nat), k0 ∉ (L.take n).map keyOf →
      (L.filter (fun o => ¬ keyOf o = k0)).take n = L.take n := by
  intro L
  induction L with
  | nil =>
    intro n _
    simp
  | cons x rest ih =>
    intro n hk
    cases n with
    | zero => simp
    | succ m =>
      rw [List.take_succ_cons, List.map_cons, List.mem_cons] at hk
      push_neg at hk
      rw [List.filter_cons, if_pos (decide_eq_true (Ne.symm hk.1)),
        List.take_succ_cons, List.take_succ_cons, ih m hk.2]

theorem take_filter_of_mem_keys (k0 : String) :
    ∀ (L : List SetOp) (n : Nat), (L.map keyOf).Nodup →
      k0 ∈ (L.take (n + 1)).map keyOf →
      (L.take (n + 1)).filter (fun o => ¬ keyOf o = k0) =
        (L.filter (fun o => ¬ keyOf o = k0)).take n := by
  intro L
  induction L with
  | nil =>
    intro n _ hk
    simp at hk
  | cons x rest ih =>
    intro n hnd hk
    rw [List.map_cons, List.nodup_cons] at hnd
    rw [List.take_succ_cons]
    by_cases h : keyOf x = k0
    · have hnot : k0 ∉ rest.map keyOf := h ▸ hnd.1
      have hnotT : k0 ∉ (rest.take n).map keyOf := fun hmem =>
        hnot (List.map_subset keyOf (List.take_subset n rest) hmem)
      rw [List.filter_cons, if_neg (by simp [h]),
        List.filter_cons, if_neg (by simp [h])]
      rw [filter_keyOf_eq_self _ _ hnotT, filter_keyOf_eq_self _ _ hnot]
    · have hk2 : k0 ∈ (rest.take n).map keyOf := by
        rw [List.take_succ_cons, List.map_cons, List.mem_cons] at hk
        rcases hk with h1 | h1
        · exact absurd h1.symm h
        · exact h1
      cases n with
      | zero => simp at hk2
      | succ m =>
        rw [List.filter_cons, if_pos (decide_eq_true h),
          List.filter_cons, if_pos (decide_eq_true h), List.take_succ_cons,
          ih m hnd.2 hk2]

instance : IsTotal CacheEntry (fun a b => a.timestamp ≤ b.timestamp) :=
  ⟨fun a b => Int.le_total a.timestamp b.timestamp⟩

instance : IsTrans CacheEntry (fun a b => a.timestamp ≤ b.timestamp) :=
  ⟨fun _ _ _ hab hbc => le_trans hab hbc⟩

/-- When all the timestamps in K ++ [last] strictly decrease and v0 is
strictly newest, the head of any ≤-sorted permutation of
v0 :: entries(K ++ [last]) is the entry of last (the unique oldest). -/
theorem sorted_head_eq_oldest (v0 : CacheEntry) (K : List SetOp)
    (llast : SetOp)
    (hpair : (K ++ [llast]).Pairwise (fun a b => b.timestamp < a.timestamp))
    (hv0 : ∀ o ∈ K ++ [llast], o.timestamp < v0.timestamp)
    (hd : CacheEntry) (tl : List CacheEntry)
    (hperm : (hd :: tl).Perm (v0 :: (K ++ [llast]).map entryOf))
    (hsorted : (hd :: tl).Sorted
      (fun a b : CacheEntry => a.timestamp ≤ b.timestamp)) :
    hd = entryOf llast := by
  have hllastmem : llast ∈ K ++ [llast] :=
    List.mem_append_right K (List.mem_singleton.mpr rfl)
  have hmin : ∀ x ∈ v0 :: (K ++ [llast]).map entryOf,
      hd.timestamp ≤ x.timestamp := by
    intro x hx
    have hx2 : x ∈ hd :: tl := hperm.mem_iff.mpr hx
    rcases List.mem_cons.mp hx2 with he | ht
    · rw [he]
    · exact List.rel_of_sorted_cons hsorted x ht
  have hdmem : hd ∈ v0 :: (K ++ [llast]).map entryOf :=
    hperm.mem_iff.mp (List.mem_cons_self _ _)
  have hle : hd.timestamp ≤ (entryOf llast).timestamp :=
    hmin _ (List.mem_cons_of_mem _ (List.mem_map_of_mem entryOf hllastmem))
  have h99ts : (entryOf llast).timestamp = llast.timestamp := rfl
  rcases List.mem_cons.mp hdmem with he | ht
  · exfalso
    have hlt := hv0 llast hllastmem
    rw [he, h99ts] at hle
    omega
  · obtain ⟨x, hxmem, hxe⟩ := List.mem_map.mp ht
    rcases List.mem_append.mp hxmem with hxK | hxl
    · exfalso
      have hlt : llast.timestamp < x.timestamp :=
        (List.pairwise_append.mp hpair).2.2 x hxK llast
          (List.mem_singleton.mpr rfl)
      have hxts : hd.timestamp = x.timestamp := by
        rw [← hxe]
        rfl
      rw [h99ts] at hle
      omega
    · rw [List.mem_singleton.mp hxl] at hxe
      exact hxe.symm

theorem applySets_append (ops : List SetOp) (op : SetOp) :
    applySets (ops ++ [op]) =
      SummaryCache.set (applySets ops) op.url op.language op.response
        op.model op.timestamp := by
  rw [applySets, applySets, List.foldl_append, List.foldl_cons,
    List.foldl_nil]

theorem cacheOf_keys (ops : List SetOp) :
    (cacheOf ops).map Prod.fst =
      ((liveOps ops).take SummaryCache.MAX_CACHE_SIZE).map keyOf := by
  rw [cacheOf, List.map_map]
  rfl

theorem cacheOf_values (ops : List SetOp) :
    (cacheOf ops).map Prod.snd =
      ((liveOps ops).take SummaryCache.MAX_CACHE_SIZE).map entryOf := by
  rw [cacheOf, List.map_map]
  rfl

theorem cacheOf_keys_nodup (ops : List SetOp) :
    ((cacheOf ops).map Prod.fst).Nodup := by
  rw [cacheOf_keys]
  exact List.Nodup.sublist
    (List.Sublist.map keyOf (List.take_sublist _ _)) (liveOps_keys_nodup ops)

theorem cacheOf_length (ops : List SetOp) :
    (cacheOf ops).length =
      min SummaryCache.MAX_CACHE_SIZE (liveOps ops).length := by
  rw [cacheOf, List.length_map, List.length_take]

theorem sorted_head_of_insertionSort (xs : List CacheEntry) (v0 : CacheEntry)
    (K : List SetOp) (llast : SetOp)
    (hperm : xs.Perm (v0 :: (K ++ [llast]).map entryOf))
    (hpair : (K ++ [llast]).Pairwise (fun a b => b.timestamp < a.timestamp))
    (hv0 : ∀ o ∈ K ++ [llast], o.timestamp < v0.timestamp)
    (hd : CacheEntry) (tl : List CacheEntry)
    (hsd : List.insertionSort
      (fun a b : CacheEntry => a.timestamp ≤ b.timestamp) xs = hd :: tl) :
    hd = entryOf llast := by
  have hp1 : (hd :: tl).Perm (v0 :: (K ++ [llast]).map entryOf) := by
    rw [← hsd]
    exact (List.perm_insertionSort _ xs).trans hperm
  have hs1 : (hd :: tl).Sorted
      (fun a b : CacheEntry => a.timestamp ≤ b.timestamp) := by
    rw [← hsd]
    exact List.sorted_insertionSort _ xs
  exact sorted_head_eq_oldest v0 K llast hpair hv0 hd tl hp1 hs1

/-- One SummaryCache.set call keeps the cache in
most-recent-100-live-entries normal form. -/
theorem set_step_perm (ops : List SetOp) (op : SetOp)
    (hsorted : (liveOps ops).Pairwise (fun a b => b.timestamp < a.timestamp))
    (hnew : ∀ o ∈ liveOps ops, o.timestamp < op.timestamp)
    (hc : (applySets ops).Perm (cacheOf ops)) :
    (SummaryCache.set (applySets ops) op.url op.language op.response
      op.model op.timestamp).Perm (cacheOf (ops ++ [op])) := by
  have hM : SummaryCache.MAX_CACHE_SIZE = 100 := rfl
  have hkey : SummaryCache.createCacheKey op.url op.language = keyOf op := rfl
  have hentry : (⟨op.url, op.language, op.response, op.timestamp,
      op.model⟩ : CacheEntry) = entryOf op := rfl
  have hndR := cacheOf_keys_nodup ops
  have hndc : ((applySets ops).map Prod.fst).Nodup :=
    ((hc.map Prod.fst).nodup_iff).mpr hndR
  have hclen : (applySets ops).length =
      min SummaryCache.MAX_CACHE_SIZE (liveOps ops).length := by
    rw [hc.length_eq, cacheOf_length]
  have htarget : cacheOf (ops ++ [op]) =
      (keyOf op, entryOf op) ::
        (((liveOps ops).filter (fun o => ¬ keyOf o = keyOf op)).take 99).map
          pairOf := by
    rw [cacheOf, liveOps_append_singleton,
      show SummaryCache.MAX_CACHE_SIZE = 99 + 1 from rfl,
      List.take_succ_cons, List.map_cons]
    rfl
  by_cases hmem : keyOf op ∈ (applySets ops).map Prod.fst
  · -- overwrite of a retained key: the entry count is unchanged
    have hlen1 : (jsMapSet (applySets ops) (keyOf op) (entryOf op)).length =
        (applySets ops).length := jsMapSet_length_of_mem _ _ _ hmem
    have hminle : min SummaryCache.MAX_CACHE_SIZE (liveOps ops).length ≤
        SummaryCache.MAX_CACHE_SIZE := min_le_left _ _
    have hcond : ¬ (SummaryCache.MAX_CACHE_SIZE <
        (List.map Prod.snd
          (jsMapSet (applySets ops) (keyOf op) (entryOf op))).length) := by
      rw [List.length_map, hlen1, hclen]
      omega
    have hset : SummaryCache.set (applySets ops) op.url op.language
        op.response op.model op.timestamp =
        jsMapSet (applySets ops) (keyOf op) (entryOf op) := by
      simp only [SummaryCache.set, hkey, hentry]
      rw [if_neg hcond]
    have h1 := jsMapSet_perm_of_mem (applySets ops) (keyOf op) (entryOf op)
      hndc hmem
    have h2 : ((applySets ops).filter (fun p => ¬ p.1 = keyOf op)).Perm
        ((cacheOf ops).filter (fun p => ¬ p.1 = keyOf op)) := hc.filter _
    have hmemT : keyOf op ∈
        ((liveOps ops).take SummaryCache.MAX_CACHE_SIZE).map keyOf := by
      have h3 := ((hc.map Prod.fst).mem_iff).mp hmem
      rw [cacheOf_keys] at h3
      exact h3
    have h4 : (cacheOf ops).filter (fun p => ¬ p.1 = keyOf op) =
        (((liveOps ops).filter (fun o => ¬ keyOf o = keyOf op)).take 99).map
          pairOf := by
      rw [cacheOf, filter_key_map_pairOf]
      rw [show SummaryCache.MAX_CACHE_SIZE = 99 + 1 from rfl] at hmemT ⊢
      rw [take_filter_of_mem_keys (keyOf op) (liveOps ops) 99
        (liveOps_keys_nodup ops) hmemT]
    have h6 : ((applySets ops).filter (fun p => ¬ p.1 = keyOf op)).Perm
        ((((liveOps ops).filter (fun o => ¬ keyOf o = keyOf op)).take 99).map
          pairOf) := h4 ▸ h2
    rw [hset, htarget]
    exact h1.trans (h6.cons _)
  · -- fresh key: the binding is appended
    have happ : jsMapSet (applySets ops) (keyOf op) (entryOf op) =
        applySets ops ++ [(keyOf op, entryOf op)] :=
      jsMapSet_eq_append_of_not_mem _ _ _ hmem
    have hlen1 : (jsMapSet (applySets ops) (keyOf op) (entryOf op)).length =
        (applySets ops).length + 1 := by
      rw [happ]
      simp
    have hmemR : keyOf op ∉
        ((liveOps ops).take SummaryCache.MAX_CACHE_SIZE).map keyOf := by
      intro hmm2
      apply hmem
      rw [← cacheOf_keys] at hmm2
      exact ((hc.map Prod.fst).mem_iff).mpr hmm2
    by_cases hfull : (applySets ops).length = SummaryCache.MAX_CACHE_SIZE
    · -- the cache was full: the oldest retained entry is evicted
      have hLge : SummaryCache.MAX_CACHE_SIZE ≤ (liveOps ops).length := by
        by_contra hlt
        push_neg at hlt
        rw [min_eq_right (le_of_lt hlt)] at hclen
        omega
      have h99 : 99 < (liveOps ops).length := by
        rw [hM] at hLge
        omega
      have hget99 : (liveOps ops)[99]? =
          some ((liveOps ops).get ⟨99, h99⟩) := by
        rw [List.getElem?_eq_getElem h99, List.get_eq_getElem]
      have htake100 : (liveOps ops).take 100 =
          (liveOps ops).take 99 ++ [(liveOps ops).get ⟨99, h99⟩] := by
        have ht := List.take_succ (l := liveOps ops) (n := 99)
        rw [hget99] at ht
        simpa using ht
      have hpair100 : ((liveOps ops).take 99 ++
          [(liveOps ops).get ⟨99, h99⟩]).Pairwise
            (fun a b => b.timestamp < a.timestamp) := by
        rw [← htake100]
        exact List.Pairwise.sublist (List.take_sublist _ _) hsorted
      have hnew100 : ∀ o ∈ (liveOps ops).take 99 ++
          [(liveOps ops).get ⟨99, h99⟩],
            o.timestamp < (entryOf op).timestamp := by
        intro o ho
        rw [← htake100] at ho
        exact hnew o (List.take_subset _ _ ho)
      have hvalperm : (List.map Prod.snd
          (applySets ops ++ [(keyOf op, entryOf op)])).Perm
            (entryOf op :: ((liveOps ops).take 99 ++
              [(liveOps ops).get ⟨99, h99⟩]).map entryOf) := by
        rw [List.map_append]
        refine (List.perm_append_singleton _ _).trans ?_
        apply List.Perm.cons
        have h9 := hc.map Prod.snd
        rw [cacheOf_values, hM] at h9
        rw [← htake100]
        exact h9
      have hcond : SummaryCache.MAX_CACHE_SIZE <
          (List.map Prod.snd
            (jsMapSet (applySets ops) (keyOf op) (entryOf op))).length := by
        rw [List.length_map, hlen1, hfull, hM]
        omega
      have hslen : (List.insertionSort
          (fun a b : CacheEntry => a.timestamp ≤ b.timestamp)
          (List.map Prod.snd
            (jsMapSet (applySets ops) (keyOf op) (entryOf op)))).length =
          101 := by
        rw [List.length_insertionSort, List.length_map, hlen1, hfull, hM]
      obtain ⟨hd, tl, hsd⟩ := List.exists_cons_of_ne_nil
        (l := List.insertionSort
          (fun a b : CacheEntry => a.timestamp ≤ b.timestamp)
          (List.map Prod.snd
            (jsMapSet (applySets ops) (keyOf op) (entryOf op))))
        (by intro hnil; rw [hnil] at hslen; simp at hslen)
      have hhd : hd = entryOf ((liveOps ops).get ⟨99, h99⟩) := by
        refine sorted_head_of_insertionSort _ (entryOf op)
          ((liveOps ops).take 99) ((liveOps ops).get ⟨99, h99⟩)
          ?_ hpair100 hnew100 hd tl hsd
        rw [happ]
        exact hvalperm
      have hsub99 : (liveOps ops).take 99 ⊆ (liveOps ops).take 100 := by
        rw [show ((liveOps ops).take 99) =
          (((liveOps ops).take 100).take 99) from by
            rw [List.take_take]; norm_num]
        exact List.take_subset _ _
      have hget99mem : (liveOps ops).get ⟨99, h99⟩ ∈ (liveOps ops).take 100 := by
        rw [htake100]
        exact List.mem_append_right _ (List.mem_singleton.mpr rfl)
      have hk99mem : keyOf ((liveOps ops).get ⟨99, h99⟩) ∈
          ((liveOps ops).take 100).map keyOf :=
        List.mem_map_of_mem keyOf hget99mem
      have hkne : ¬ ((keyOf op, entryOf op).1 =
          keyOf ((liveOps ops).get ⟨99, h99⟩)) := by
        intro he
        apply hmemR
        rw [hM]
        rw [show (keyOf op, entryOf op).1 = keyOf op from rfl] at he
        rw [he]
        exact hk99mem
      have hnd100 : (((liveOps ops).take 100).map keyOf).Nodup :=
        List.Nodup.sublist (List.Sublist.map keyOf (List.take_sublist _ _))
          (liveOps_keys_nodup ops)
      have hk99not : keyOf ((liveOps ops).get ⟨99, h99⟩) ∉
          ((liveOps ops).take 99).map keyOf := by
        rw [htake100, List.map_append, List.nodup_append] at hnd100
        intro hmm4
        exact hnd100.2.2 hmm4 (by simp)
      have hfilterK : (((liveOps ops).take 99).map pairOf).filter
          (fun p => ¬ p.1 = keyOf ((liveOps ops).get ⟨99, h99⟩)) =
          ((liveOps ops).take 99).map pairOf := by
        apply filter_key_eq_self
        rw [List.map_map]
        exact hk99not
      -- the evicted singleton reduces the fold to one delete
      have hone : (List.map Prod.snd
          (jsMapSet (applySets ops) (keyOf op) (entryOf op))).length -
          SummaryCache.MAX_CACHE_SIZE = 1 := by
        rw [List.length_map, hlen1, hfull, hM]
      have hset : SummaryCache.set (applySets ops) op.url op.language
          op.response op.model op.timestamp =
          jsMapDelete (jsMapSet (applySets ops) (keyOf op) (entryOf op))
            (SummaryCache.createCacheKey hd.url hd.language) := by
        simp only [SummaryCache.set, hkey, hentry]
        rw [if_pos hcond, hone, hsd]
        rw [show (1 : Nat) = 0 + 1 from rfl, List.take_succ_cons,
          List.take_zero]
        rw [List.foldl_cons, List.foldl_nil]
      have hc1perm : (jsMapSet (applySets ops) (keyOf op) (entryOf op)).Perm
          ((keyOf op, entryOf op) ::
            (((liveOps ops).take 99 ++
              [(liveOps ops).get ⟨99, h99⟩]).map pairOf)) := by
        rw [happ, ← htake100]
        refine (List.perm_append_singleton _ _).trans ?_
        apply List.Perm.cons
        have h9 := hc
        rw [cacheOf, hM] at h9
        exact h9
      rw [hset, htarget]
      have hfilterperm : (jsMapDelete
          (jsMapSet (applySets ops) (keyOf op) (entryOf op))
          (SummaryCache.createCacheKey hd.url hd.language)).Perm
          ((((keyOf op, entryOf op) ::
            (((liveOps ops).take 99 ++
              [(liveOps ops).get ⟨99, h99⟩]).map pairOf))).filter
            (fun p => ¬ p.1 =
              SummaryCache.createCacheKey hd.url hd.language)) := by
        rw [jsMapDelete_eq_filter]
        exact hc1perm.filter _
      have hkeyhd : SummaryCache.createCacheKey hd.url hd.language =
          keyOf ((liveOps ops).get ⟨99, h99⟩) := by
        rw [hhd]
        rfl
      have hfiltered : (((keyOf op, entryOf op) ::
          (((liveOps ops).take 99 ++
            [(liveOps ops).get ⟨99, h99⟩]).map pairOf))).filter
            (fun p => ¬ p.1 = keyOf ((liveOps ops).get ⟨99, h99⟩)) =
          (keyOf op, entryOf op) :: ((liveOps ops).take 99).map pairOf := by
        rw [List.filter_cons, if_pos (decide_eq_true hkne), List.map_append,
          List.filter_append, hfilterK]
        simp [pairOf]
      rw [hkeyhd] at hfilterperm
      rw [hfiltered] at hfilterperm
      rw [hkeyhd]
      -- identify the claim's take-99 of the filtered live list
      have hnot99 : keyOf op ∉ ((liveOps ops).take 99).map keyOf := by
        intro hmm3
        apply hmemR
        rw [hM]
        exact List.map_subset keyOf hsub99 hmm3
      have hF99 : (((liveOps ops).filter
          (fun o => ¬ keyOf o = keyOf op)).take 99) =
          (liveOps ops).take 99 :=
        filter_take_of_not_mem_keys (keyOf op) (liveOps ops) 99 hnot99
      rw [hF99]
      exact hfilterperm
    · -- the cache had room: the new binding is simply appended
      have hminle : min SummaryCache.MAX_CACHE_SIZE (liveOps ops).length ≤
          SummaryCache.MAX_CACHE_SIZE := min_le_left _ _
      have hcond : ¬ (SummaryCache.MAX_CACHE_SIZE <
          (List.map Prod.snd
            (jsMapSet (applySets ops) (keyOf op) (entryOf op))).length) := by
        rw [List.length_map, hlen1]
        omega
      have hset : SummaryCache.set (applySets ops) op.url op.language
          op.response op.model op.timestamp =
          jsMapSet (applySets ops) (keyOf op) (entryOf op) := by
        simp only [SummaryCache.set, hkey, hentry]
        rw [if_neg hcond]
      have hLlen : (liveOps ops).length < SummaryCache.MAX_CACHE_SIZE := by
        by_contra hge
        push_neg at hge
        rw [min_eq_left hge] at hclen
        exact hfull hclen
      have htakeL : (liveOps ops).take SummaryCache.MAX_CACHE_SIZE =
          liveOps ops := List.take_of_length_le (le_of_lt hLlen)
      have hmemL : keyOf op ∉ (liveOps ops).map keyOf := by
        rw [← htakeL]
        exact hmemR
      have hFL : (liveOps ops).filter (fun o => ¬ keyOf o = keyOf op) =
          liveOps ops := filter_keyOf_eq_self _ _ hmemL
      have htake99 : (liveOps ops).take 99 = liveOps ops :=
        List.take_of_length_le (by rw [hM] at hLlen; omega)
      rw [hset, happ, htarget, hFL, htake99]
      refine (List.perm_append_singleton _ _).trans ?_
      apply List.Perm.cons
      have h8 : cacheOf ops = (liveOps ops).map pairOf := by
        rw [cacheOf, htakeL]
      rw [← h8]
      exact hc

/-- After any sequence of set calls with strictly increasing Date.now()
values, the cache is a permutation of the 100 most recent live bindings. -/
theorem applySets_perm : ∀ ops : List SetOp,
    ops.Pairwise (fun a b => a.timestamp < b.timestamp) →
    (applySets ops).Perm (cacheOf ops) := by
  intro ops
  induction ops using List.reverseRecOn with
  | nil =>
    intro _
    exact List.Perm.nil
  | append_singleton ops op ih =>
    intro hinc
    rw [List.pairwise_append] at hinc
    obtain ⟨hops, -, hcross⟩ := hinc
    rw [applySets_append]
    exact set_step_perm ops op (liveOps_sorted hops)
      (fun o ho =>
        hcross o (mem_of_mem_liveOps ho) op (List.mem_singleton.mpr rfl))
      (ih hops)

/-- In a strictly-descending-by-timestamp list, membership in the first n
elements is equivalent to having fewer than n strictly newer elements. -/
theorem mem_take_iff_countNewer :
    ∀ (L : List SetOp) (n : Nat) (o : SetOp),
      L.Pairwise (fun a b => b.timestamp < a.timestamp) →
      o ∈ L →
      (o ∈ L.take n ↔
        (L.filter (fun x => o.timestamp < x.timestamp)).length < n) := by
  intro L
  induction L with
  | nil =>
    intro n o _ ho
    simp at ho
  | cons x rest ih =>
    intro n o hp ho
    rw [List.pairwise_cons] at hp
    rcases List.mem_cons.mp ho with rfl | ho2
    · have hf : (o :: rest).filter (fun y => o.timestamp < y.timestamp) =
          [] := by
        rw [List.filter_cons, if_neg (by simp)]
        rw [List.filter_eq_nil_iff]
        intro a ha
        simp only [decide_eq_true_eq, not_lt]
        exact le_of_lt (hp.1 a ha)
      rw [hf]
      simp only [List.length_nil]
      cases n with
      | zero => simp
      | succ m => simp [List.take_succ_cons]
    · have hlt : o.timestamp < x.timestamp := hp.1 o ho2
      have hne : o ≠ x := by
        intro he
        rw [he] at hlt
        omega
      rw [List.filter_cons, if_pos (decide_eq_true hlt)]
      cases n with
      | zero => simp
      | succ m =>
        rw [List.take_succ_cons, List.length_cons]
        constructor
        · intro hmem
          rcases List.mem_cons.mp hmem with he | hmem2
          · exact absurd he hne
          · have := (ih m o hp.2 ho2).mp hmem2
            omega
        · intro hlen
          have h2 : (rest.filter
              (fun y => o.timestamp < y.timestamp)).length < m := by
            omega
          exact List.mem_cons_of_mem _ ((ih m o hp.2 ho2).mpr h2)

/-- SummaryCache.get never alters or refreshes a surviving entry: any
binding readable after a get was readable before it. -/
theorem get_preserves_entries (cache : CacheStorage) (url language : String)
    (now : Int) (k : String) (e : CacheEntry)
    (h : jsMapGet (SummaryCache.get cache url language now).2 k = some e) :
    jsMapGet cache k = some e := by
  rcases hm : jsMapGet cache (SummaryCache.createCacheKey url language) with
    _ | entry
  · simp only [SummaryCache.get, hm] at h
    exact h
  · simp only [SummaryCache.get, hm] at h
    by_cases hexp : entry.timestamp +
        (SummaryCache.CACHE_EXPIRY_DAYS : Int) * 24 * 60 * 60 * 1000 < now
    · rw [if_pos hexp] at h
      simp only at h
      by_cases hk : k = SummaryCache.createCacheKey url language
      · subst hk
        rw [SummaryCache.remove, jsMapGet_delete_self] at h
        exact absurd h (by simp)
      · rw [SummaryCache.remove, jsMapGet_delete_ne _ _ _ hk] at h
        exact h
    · rw [if_neg hexp] at h
      exact h

/-- Claim C3: after any finite sequence of SummaryCache.set calls with
strictly increasing Date.now() timestamps, starting from the empty
cache: the stored entry count never exceeds MAX_CACHE_SIZE (100); the
retained entries are exactly the per-key most recent writes (liveOps)
that have fewer than 100 strictly newer live entries — i.e. the 100
entries with the most recent insertion timestamps; and reads through
SummaryCache.get never alter or refresh a surviving entry. -/
theorem cache_bound_and_lru (ops : List SetOp)
    (hinc : ops.Pairwise (fun a b => a.timestamp < b.timestamp)) :
    (SummaryCache.getStats (applySets ops)).size ≤ SummaryCache.MAX_CACHE_SIZE
    ∧ (∀ k e, jsMapGet (applySets ops) k = some e ↔
        ∃ o ∈ liveOps ops, keyOf o = k ∧ e = entryOf o ∧
          countNewerLive ops o.timestamp < SummaryCache.MAX_CACHE_SIZE)
    ∧ (∀ (cache : CacheStorage) (url language : String) (now : Int)
        (k : String) (e : CacheEntry),
        jsMapGet (SummaryCache.get cache url language now).2 k = some e →
        jsMapGet cache k = some e) := by
  have hperm := applySets_perm ops hinc
  refine ⟨?_, ?_, fun cache url language now k e h =>
    get_preserves_entries cache url language now k e h⟩
  · rw [getStats_size, hperm.length_eq, cacheOf_length]
    exact min_le_left _ _
  · intro k e
    have hndR := cacheOf_keys_nodup ops
    have hndc : ((applySets ops).map Prod.fst).Nodup :=
      ((hperm.map Prod.fst).nodup_iff).mpr hndR
    rw [jsMapGet_congr_perm hperm hndc k,
      jsMapGet_eq_some_iff_mem _ hndR k e, cacheOf]
    have hsorted := liveOps_sorted hinc
    constructor
    · intro hmem
      obtain ⟨o, homem, hpe⟩ := List.mem_map.mp hmem
      obtain ⟨h1, h2⟩ := Prod.mk.inj hpe
      have holive : o ∈ liveOps ops := List.take_subset _ _ homem
      refine ⟨o, holive, h1, h2.symm, ?_⟩
      rw [countNewerLive]
      exact (mem_take_iff_countNewer (liveOps ops)
        SummaryCache.MAX_CACHE_SIZE o hsorted holive).mp homem
    · rintro ⟨o, holive, h1, h2, hcnl⟩
      rw [countNewerLive] at hcnl
      have homem := (mem_take_iff_countNewer (liveOps ops)
        SummaryCache.MAX_CACHE_SIZE o hsorted holive).mpr hcnl
      exact List.mem_map.mpr ⟨o, homem, by rw [pairOf, h1, ← h2]⟩

/-- Claim C3 (witness): two inserts with increasing timestamps respect
the bound. -/
theorem cache_bound_and_lru_witness :
    (SummaryCache.getStats (applySets
      [⟨"https://a.com", "english", "r1", "portkey", 1⟩,
       ⟨"https://b.com", "english", "r2", "portkey", 2⟩])).size ≤
      SummaryCache.MAX_CACHE_SIZE :=
  (cache_bound_and_lru
    [⟨"https://a.com", "english", "r1", "portkey", 1⟩,
     ⟨"https://b.com", "english", "r2", "portkey", 2⟩]
    (by simp)).1
